import Mathlib

/-!
# Verification of the `field` crate (triangulated periodic height field + raycaster)

Shallow embedding of `src/field/src/lib.rs`.  Machine floats (`f64`) are
idealised as elements of a linear ordered field `K` (instantiated at `ℚ` or
`ℝ` in the theorems); `f64::sqrt` is passed explicitly as a function
parameter `sqrtF` and instantiated with `Real.sqrt` where the actual program
is concerned.  Rust's `Option` maps to `Option`; a `panic!`/`unwrap` failure
is modelled as `none` where noted.
-/

namespace Garden

/-- Planar vector (`nalgebra::Vector2<f64>` / `Point2<f64>`). -/
structure Vec2 (K : Type) where
  x : K
  y : K
deriving Repr, DecidableEq

/-- Spatial vector (`nalgebra::Vector3<f64>` / `Point3<f64>`). -/
structure Vec3 (K : Type) where
  x : K
  y : K
  z : K
deriving Repr, DecidableEq

/-- Row-major 2×2 matrix `[[a, b], [c, d]]` (`nalgebra::Matrix2<f64>`). -/
structure Mat2 (K : Type) where
  a : K
  b : K
  c : K
  d : K
deriving Repr, DecidableEq

variable {K : Type} [LinearOrderedField K]

namespace Vec2

def add (u v : Vec2 K) : Vec2 K := ⟨u.x + v.x, u.y + v.y⟩

def sub (u v : Vec2 K) : Vec2 K := ⟨u.x - v.x, u.y - v.y⟩

/-- Model of `Vector2::norm_squared`. -/
def normSq (v : Vec2 K) : K := v.x * v.x + v.y * v.y

end Vec2

namespace Vec3

def add (u v : Vec3 K) : Vec3 K := ⟨u.x + v.x, u.y + v.y, u.z + v.z⟩

def sub (u v : Vec3 K) : Vec3 K := ⟨u.x - v.x, u.y - v.y, u.z - v.z⟩

def smul (t : K) (v : Vec3 K) : Vec3 K := ⟨t * v.x, t * v.y, t * v.z⟩

def neg (v : Vec3 K) : Vec3 K := ⟨-v.x, -v.y, -v.z⟩

/-- Model of `Vector3::xy()`. -/
def xy (v : Vec3 K) : Vec2 K := ⟨v.x, v.y⟩

end Vec3

namespace Mat2

/-- Matrix–vector product. -/
def mulVec (m : Mat2 K) (v : Vec2 K) : Vec2 K :=
  ⟨m.a * v.x + m.b * v.y, m.c * v.x + m.d * v.y⟩

/-- Matrix–matrix product. -/
def mul (m n : Mat2 K) : Mat2 K :=
  ⟨m.a * n.a + m.b * n.c, m.a * n.b + m.b * n.d,
   m.c * n.a + m.d * n.c, m.c * n.b + m.d * n.d⟩

def det (m : Mat2 K) : K := m.a * m.d - m.b * m.c

/-- Transpose of a 2×2 matrix. -/
def transpose (m : Mat2 K) : Mat2 K := ⟨m.a, m.c, m.b, m.d⟩

/-- Model of `Matrix2::try_inverse`: `none` iff the computed determinant is
exactly zero (nalgebra tests `is_zero` on it).  A NaN determinant — which
arises only from non-finite entries — passes that test in f64; non-finite
arithmetic is outside this exact model. -/
def inverse2 (m : Mat2 K) : Option (Mat2 K) :=
  if m.det = 0 then none
  else some ⟨m.d / m.det, -m.b / m.det, -m.c / m.det, m.a / m.det⟩

end Mat2

/-- Determinant of the 3×3 matrix with columns `c1 c2 c3`. -/
def det3 (c1 c2 c3 : Vec3 K) : K :=
  c1.x * (c2.y * c3.z - c2.z * c3.y)
    - c2.x * (c1.y * c3.z - c1.z * c3.y)
    + c3.x * (c1.y * c2.z - c1.z * c2.y)

/-- Model of `lu().solve(b)` on the 3×3 matrix with columns `c1 c2 c3`: the unique
solution (by Cramer's rule) when the matrix is invertible, `none` when it is
singular (the "ray is coplanar" branch of the source). -/
def solve3 (c1 c2 c3 b : Vec3 K) : Option (Vec3 K) :=
  if det3 c1 c2 c3 = 0 then none
  else some ⟨det3 b c2 c3 / det3 c1 c2 c3,
             det3 c1 b c3 / det3 c1 c2 c3,
             det3 c1 c2 b / det3 c1 c2 c3⟩

/-- The two triangle orientations of a unit cell (`enum TrigType`). -/
inductive TrigType where
  | Upper
  | Lower
deriving Repr, DecidableEq

/-- The three columns of a 2×3 barycentric-gradient matrix
(`Matrix2x3<f64>`), stored column-wise. -/
structure GradMat (K : Type) where
  g1 : Vec2 K
  g2 : Vec2 K
  g3 : Vec2 K
deriving Repr, DecidableEq

/-- Model of `to_square_coords.transpose() * matrix![0,1,-1; 1,0,-1]` — the
precomputed gradient of the lower-triangle barycentric coordinates. -/
def lowerGradOf (t : Mat2 K) : GradMat K :=
  ⟨t.transpose.mulVec ⟨0, 1⟩, t.transpose.mulVec ⟨1, 0⟩, t.transpose.mulVec ⟨-1, -1⟩⟩

/-- Model of `to_square_coords.transpose() * matrix![-1,1,0; 0,1,-1]` — the
precomputed gradient of the upper-triangle barycentric coordinates. -/
def upperGradOf (t : Mat2 K) : GradMat K :=
  ⟨t.transpose.mulVec ⟨-1, 0⟩, t.transpose.mulVec ⟨1, 1⟩, t.transpose.mulVec ⟨0, -1⟩⟩

/-- Model of `Field<T>` specialised to scalar payloads.  `data` is the row-major
grid (`data r c` for storage row `r`, storage column `c`; the source's
`Grid<T>` is only ever read at indices reduced into
`[0, rows) × [0, cols)` by `vertex`). -/
structure Field (K : Type) where
  rows : ℕ
  cols : ℕ
  data : ℕ → ℕ → K
  fromSquare : Mat2 K
  toSquare : Mat2 K
  lowerGrad : GradMat K
  upperGrad : GradMat K

namespace Field

variable (F : Field K)

/-- The toroidal index reduction performed by `Field::vertex`:
`d_col = (col + row.div_euclid(rows) * (rows/2)).rem_euclid(cols)`,
`d_row = row.rem_euclid(rows)`. -/
def vertexIdx (F : Field K) (col row : ℤ) : ℕ × ℕ :=
  ((row % (F.rows : ℤ)).toNat,
   ((col + row / (F.rows : ℤ) * ((F.rows : ℤ) / 2)) % (F.cols : ℤ)).toNat)

/-- The stored sample returned by `Field::vertex` for lattice index
`(col, row)`. -/
def vertexSample (F : Field K) (col row : ℤ) : K :=
  F.data (F.vertexIdx col row).1 (F.vertexIdx col row).2

/-- Model of `Field::vertex`: world position and stored sample.  NOTE: the source
builds the position as `from_square_coords * vector![row, col]`
(row first). -/
def vertex (F : Field K) (idx : ℤ × ℤ) : Vec2 K × K :=
  (F.fromSquare.mulVec ⟨(idx.2 : K), (idx.1 : K)⟩, F.vertexSample idx.1 idx.2)

end Field

/-- Vertex-index triple of the lower triangle of cell `(col, row)`
(as produced by both `trig_data_from_square_coords` and `iter_trigs`). -/
def lowerTrig (col row : ℤ) : (ℤ × ℤ) × (ℤ × ℤ) × (ℤ × ℤ) :=
  ((col, row + 1), (col + 1, row), (col, row))

/-- Vertex-index triple of the upper triangle of cell `(col, row)`. -/
def upperTrig (col row : ℤ) : (ℤ × ℤ) × (ℤ × ℤ) × (ℤ × ℤ) :=
  ((col, row + 1), (col + 1, row + 1), (col + 1, row))

/-- Result of point location: vertex-index triple, barycentric
coordinates, triangle orientation. -/
structure TrigData (K : Type) where
  i1 : ℤ × ℤ
  i2 : ℤ × ℤ
  i3 : ℤ × ℤ
  coords : Vec3 K
  ttype : TrigType

/-- Model of `trig_data_from_square_coords`: split the square-space position into
integer cell and fractional offsets (`div_euclid(1.)` = floor,
`rem_euclid(1.)` = fractional part), pick the triangle by `u + v < 1`. -/
def trigDataFromSquareCoords [FloorRing K] (p : Vec2 K) : TrigData K :=
  let col : ℤ := ⌊p.x⌋
  let u : K := Int.fract p.x
  let row : ℤ := ⌊p.y⌋
  let v : K := Int.fract p.y
  if u + v < 1 then
    ⟨(lowerTrig col row).1, (lowerTrig col row).2.1, (lowerTrig col row).2.2,
     ⟨v, u, 1 - v - u⟩, TrigType.Lower⟩
  else
    ⟨(upperTrig col row).1, (upperTrig col row).2.1, (upperTrig col row).2.2,
     ⟨1 - u, v + u - 1, 1 - v⟩, TrigType.Upper⟩

namespace Field

variable [FloorRing K]

/-- Model of `Field::trig_data`: transform to square coordinates, then locate. -/
def trigData (F : Field K) (pos : Vec2 K) : TrigData K :=
  trigDataFromSquareCoords (F.toSquare.mulVec pos)

/-- Model of `Field::trig_coord_grads`. -/
def trigCoordGrads (F : Field K) (o : TrigType) : GradMat K :=
  match o with
  | TrigType.Upper => F.upperGrad
  | TrigType.Lower => F.lowerGrad

/-- Model of `Field::trig_gradient`: sum of `sample * gradient-column` over the three
vertices of the triangle. -/
def trigGradient (F : Field K) (i1 i2 i3 : ℤ × ℤ) (o : TrigType) : Vec2 K :=
  let g := F.trigCoordGrads o
  let s1 := F.vertexSample i1.1 i1.2
  let s2 := F.vertexSample i2.1 i2.2
  let s3 := F.vertexSample i3.1 i3.2
  ⟨s1 * g.g1.x + s2 * g.g2.x + s3 * g.g3.x,
   s1 * g.g1.y + s2 * g.g2.y + s3 * g.g3.y⟩

/-- Model of `Field::value` on square coordinates (the body of `value` after the
`to_square_coords` transform). -/
def squareValue (F : Field K) (s : Vec2 K) : K :=
  let td := trigDataFromSquareCoords s
  F.vertexSample td.i1.1 td.i1.2 * td.coords.x
    + F.vertexSample td.i2.1 td.i2.2 * td.coords.y
    + F.vertexSample td.i3.1 td.i3.2 * td.coords.z

/-- Model of `Field::value`: barycentric interpolation of the three vertex samples. -/
def value (F : Field K) (pos : Vec2 K) : K :=
  F.squareValue (F.toSquare.mulVec pos)

/-- Model of `Field::gradient`. -/
def gradient (F : Field K) (pos : Vec2 K) : Vec2 K :=
  let td := F.trigData pos
  F.trigGradient td.i1 td.i2 td.i3 td.ttype

/-- The grid contents in row-major iteration order (`Grid::iter`). -/
def dataList (F : Field K) : List K :=
  (List.range F.rows).flatMap fun r => (List.range F.cols).map fun c => F.data r c

/-- Model of `iter_trigs`: all triangles of the tiling, rows outer, columns inner,
lower before upper. -/
def trigList (F : Field K) : List (((ℤ × ℤ) × (ℤ × ℤ) × (ℤ × ℤ)) × TrigType) :=
  (List.range F.rows).flatMap fun row =>
    (List.range F.cols).flatMap fun col =>
      [(lowerTrig (col : ℤ) (row : ℤ), TrigType.Lower),
       (upperTrig (col : ℤ) (row : ℤ), TrigType.Upper)]

/-- Model of `Field::map_with_coords`: the replaced payload; the source fills the
grid row-major with `f(from_square_coords * point![col, row], old)` for
`row ∈ [0, rows)`, `col ∈ [0, cols)` (column first in the position). -/
def mapWithCoords (F : Field K) (f : Vec2 K → K → K) : Field K :=
  { F with data := fun r c => f (F.fromSquare.mulVec ⟨(c : K), (r : K)⟩) (F.data r c) }

end Field

/-- Maximum of a list (`max_by(f64::total_cmp).unwrap()`, with `0` standing
in for the panic on an empty grid). -/
def listMax : List K → K
  | [] => 0
  | x :: xs => xs.foldl max x

/-- Minimum of a list (`min_by(f64::total_cmp).unwrap()`). -/
def listMin : List K → K
  | [] => 0
  | x :: xs => xs.foldl min x

namespace Field

variable [FloorRing K]

/-- Model of `Field::max_gradient`: square root of the maximal squared gradient
norm over all triangles. -/
def maxGradient (sqrtF : K → K) (F : Field K) : K :=
  sqrtF (listMax ((F.trigList).map fun t => Vec2.normSq (F.trigGradient t.1.1 t.1.2.1 t.1.2.2 t.2)))

/-- Model of `Field::new`: grid sizing, spacing, shear matrix and its
inverse, in exact arithmetic.  `(tile_x / res) as usize` is the saturating
float→usize cast, i.e. `Int.toNat ∘ Int.floor`.  The `none` branch mirrors
`try_inverse().unwrap()` failing on an exactly-zero determinant.  CAVEAT:
on parameters that collapse a grid dimension to `0`, the f64 spacings are
`±inf` (division by zero), the determinant is NaN, and the real
`try_inverse` *succeeds*, so the float program silently builds a
non-finite field there; this exact model (where `x / 0 = 0`) is only
faithful on the finite, non-degenerate paths, and every theorem below uses
it only on those paths. -/
def new (sqrtF : K → K) (tile_x tile_y res : K) : Option (Field K) :=
  let cols : ℕ := (⌊tile_x / res⌋).toNat
  let rows : ℕ := (⌊tile_y * (1 / sqrtF 3) / res⌋).toNat * 2
  let d_x : K := tile_x / (cols : K)
  let d_y : K := tile_y * (2 / sqrtF 3) / (rows : K)
  let fromSquare : Mat2 K := (Mat2.mul ⟨d_x, 0, 0, d_y⟩ ⟨1, 1/2, 0, sqrtF 3 / 2⟩)
  match fromSquare.inverse2 with
  | none => none
  | some toSquare =>
      some { rows := rows, cols := cols, data := fun _ _ => 0,
             fromSquare := fromSquare, toSquare := toSquare,
             lowerGrad := lowerGradOf toSquare, upperGrad := upperGradOf toSquare }

end Field

/-- Model of `Raycaster` (the source misspells the height fields as
`max_heigth`/`min_heigth`). -/
structure Raycaster (K : Type) where
  field : Field K
  maxHeigth : K
  minHeigth : K
  maxGradient : K

namespace Field

variable [FloorRing K]

/-- Model of `Field::raycaster`: precompute extrema and the Lipschitz bound. -/
def raycaster (sqrtF : K → K) (F : Field K) : Raycaster K :=
  { field := F,
    maxHeigth := listMax F.dataList,
    minHeigth := listMin F.dataList,
    maxGradient := F.maxGradient sqrtF }

end Field

/-- The minimal forward step `1e-5` hard-coded in `cast`. -/
def epsK : K := 1 / 100000

/-- Initial value of `advanced` in `cast`:
`f64::min(0., f64::min(i_min, i_max))`. -/
def castStart (minH maxH : K) (pos dir : Vec3 K) : K :=
  min 0 (min ((minH - pos.z) / dir.z) ((maxH - pos.z) / dir.z))

/-- Value of `end` in `cast`: `f64::min(f64::max(i_min, i_max), 1000.)`. -/
def castEnd (minH maxH : K) (pos dir : Vec3 K) : K :=
  min (max ((minH - pos.z) / dir.z) ((maxH - pos.z) / dir.z)) 1000

/-- Model of `cone_opening = 1. / (dir.z.abs() + max_gradient * dir.xy().norm())`. -/
def coneOpening (sqrtF : K → K) (maxGrad : K) (dir : Vec3 K) : K :=
  1 / (|dir.z| + maxGrad * sqrtF (Vec2.normSq dir.xy))

/-- The three 3-D triangle vertices fetched in the march loop:
`(o.x, o.y, h)` from `Field::vertex` for each index of the triple. -/
def trigVertices3 [FloorRing K] (F : Field K) (i1 i2 i3 : ℤ × ℤ) :
    Vec3 K × Vec3 K × Vec3 K :=
  (⟨(F.vertex i1).1.x, (F.vertex i1).1.y, (F.vertex i1).2⟩,
   ⟨(F.vertex i2).1.x, (F.vertex i2).1.y, (F.vertex i2).2⟩,
   ⟨(F.vertex i3).1.x, (F.vertex i3).1.y, (F.vertex i3).2⟩)

/-- The exact ray/triangle test of one march iteration at march parameter
`advanced`: solve `[-dir | v1-v0 | v2-v0] (t,u,v) = pos - v0` and accept if
`t ≥ 0 ∧ u ≥ 0 ∧ v ≥ 0 ∧ u + v ≤ 1`, yielding `pos + t*dir`. -/
def castExactTest [FloorRing K] (F : Field K) (pos dir : Vec3 K) (advanced : K) :
    Option (Vec3 K) :=
  let current := pos.add (Vec3.smul advanced dir)
  let td := F.trigData current.xy
  let vs := trigVertices3 F td.i1 td.i2 td.i3
  match solve3 (Vec3.neg dir) (vs.2.1.sub vs.1) (vs.2.2.sub vs.1) (pos.sub vs.1) with
  | some s =>
      if 0 ≤ s.x ∧ 0 ≤ s.y ∧ 0 ≤ s.z ∧ s.y + s.z ≤ 1 then
        some (pos.add (Vec3.smul s.x dir))
      else none
  | none => none

/-- The interpolated terrain height `t_height` under the ray at march
parameter `advanced`: `v0.z*c.x + v1.z*c.y + v2.z*c.z`. -/
def marchHeight [FloorRing K] (F : Field K) (pos dir : Vec3 K) (advanced : K) : K :=
  let current := pos.add (Vec3.smul advanced dir)
  let td := F.trigData current.xy
  let vs := trigVertices3 F td.i1 td.i2 td.i3
  vs.1.z * td.coords.x + vs.2.1.z * td.coords.y + vs.2.2.z * td.coords.z

/-- One march step: `delta = cone_opening * (t_height - current_pos.z).abs()`,
advance by `max(delta, 1e-5)`. -/
def marchStep [FloorRing K] (F : Field K) (pos dir : Vec3 K) (cone advanced : K) : K :=
  max (cone * |marchHeight F pos dir advanced - (pos.add (Vec3.smul advanced dir)).z|) epsK

/-- The `while advanced < end` march loop of `Raycaster::cast`. -/
def castLoop [FloorRing K] (F : Field K) (pos dir : Vec3 K) (cone endP advanced : K) :
    Option (Vec3 K) :=
  if h : advanced < endP then
    match castExactTest F pos dir advanced with
    | some hit => some hit
    | none => castLoop F pos dir cone endP (advanced + marchStep F pos dir cone advanced)
  else none
termination_by (⌈(endP - advanced) / (epsK : K)⌉).toNat
decreasing_by
  have heps : (0 : K) < epsK := by norm_num [epsK]
  have hstep : epsK ≤ marchStep F pos dir cone advanced := le_max_right _ _
  have hle : (endP - (advanced + marchStep F pos dir cone advanced)) / epsK
      ≤ (endP - advanced) / epsK - 1 := by
    rw [div_sub_one (ne_of_gt heps)]
    exact (div_le_div_right heps).mpr (by linarith)
  have hceil : ⌈(endP - (advanced + marchStep F pos dir cone advanced)) / (epsK : K)⌉
      ≤ ⌈(endP - advanced) / (epsK : K)⌉ - 1 := by
    have := Int.ceil_le_ceil hle
    rwa [Int.ceil_sub_one] at this
  have hpos : 0 < ⌈(endP - advanced) / (epsK : K)⌉ := by
    apply Int.ceil_pos.mpr
    apply div_pos _ heps
    linarith
  omega

/-- Number of iterations the march loop performs (same recursion as
`castLoop`). -/
def castSteps [FloorRing K] (F : Field K) (pos dir : Vec3 K) (cone endP advanced : K) : ℕ :=
  if h : advanced < endP then
    match castExactTest F pos dir advanced with
    | some _ => 1
    | none => 1 + castSteps F pos dir cone endP (advanced + marchStep F pos dir cone advanced)
  else 0
termination_by (⌈(endP - advanced) / (epsK : K)⌉).toNat
decreasing_by
  have heps : (0 : K) < epsK := by norm_num [epsK]
  have hstep : epsK ≤ marchStep F pos dir cone advanced := le_max_right _ _
  have hle : (endP - (advanced + marchStep F pos dir cone advanced)) / epsK
      ≤ (endP - advanced) / epsK - 1 := by
    rw [div_sub_one (ne_of_gt heps)]
    exact (div_le_div_right heps).mpr (by linarith)
  have hceil : ⌈(endP - (advanced + marchStep F pos dir cone advanced)) / (epsK : K)⌉
      ≤ ⌈(endP - advanced) / (epsK : K)⌉ - 1 := by
    have := Int.ceil_le_ceil hle
    rwa [Int.ceil_sub_one] at this
  have hpos : 0 < ⌈(endP - advanced) / (epsK : K)⌉ := by
    apply Int.ceil_pos.mpr
    apply div_pos _ heps
    linarith
  omega

namespace Raycaster

/-- Model of `Raycaster::cast`: slab rejection, bracket computation, cone bound,
march loop. -/
def cast [FloorRing K] (sqrtF : K → K) (r : Raycaster K) (pos dir : Vec3 K) :
    Option (Vec3 K) :=
  let iMin := (r.minHeigth - pos.z) / dir.z
  let iMax := (r.maxHeigth - pos.z) / dir.z
  if iMin ≤ 0 ∧ iMax ≤ 0 then none
  else
    castLoop r.field pos dir (coneOpening sqrtF r.maxGradient dir)
      (castEnd r.minHeigth r.maxHeigth pos dir)
      (castStart r.minHeigth r.maxHeigth pos dir)

end Raycaster

/-! ## Spec-modelled definitions

These two definitions follow the specification's words (not the source);
they exist to compare the spec's description with the source behaviour. -/

/-- Modelled from the spec: "start at `max(epsilon, min(i_min,i_max))`" —
the march start parameter as the specification describes it.  (The source
computes `f64::min(0., f64::min(i_min, i_max))` instead, see `castStart`.) -/
def specMarchStart (minH maxH : K) (pos dir : Vec3 K) : K :=
  max epsK (min ((minH - pos.z) / dir.z) ((maxH - pos.z) / dir.z))

/-- Modelled from the spec: "for each of the triangle's 3 edges, solve the
2×2 system for the ray's intersection with the vertical plane through that
edge" — the parameters `(t, u)` with
`pos.xy + t * dir.xy = a.xy + u * (b.xy - a.xy)`, solved by Cramer's rule;
`none` when the ray is parallel to the edge's vertical plane.  (No such
computation exists in the source's march loop.) -/
def specEdgeIntersect (pos dir a b : Vec3 K) : Option (K × K) :=
  let dxy := dir.xy
  let exy := Vec2.sub b.xy a.xy
  let rhs := Vec2.sub a.xy pos.xy
  let d := dxy.x * (-exy.y) - (-exy.x) * dxy.y
  if d = 0 then none
  else some ((rhs.x * (-exy.y) - (-exy.x) * rhs.y) / d,
             (dxy.x * rhs.y - rhs.x * dxy.y) / d)

/-! ## Toroidal index arithmetic -/

namespace Field

/-- Shifting the lattice column by a multiple of `cols` does not change the
resolved storage index. -/
theorem vertexIdx_col_shift (F : Field K) (col row k : ℤ) :
    F.vertexIdx (col + (F.cols : ℤ) * k) row = F.vertexIdx col row := by
  unfold vertexIdx
  refine congrArg₂ Prod.mk rfl ?_
  congr 1
  rw [show col + (F.cols : ℤ) * k + row / (F.rows : ℤ) * ((F.rows : ℤ) / 2)
      = col + row / (F.rows : ℤ) * ((F.rows : ℤ) / 2) + (F.cols : ℤ) * k from by ring]
  simp [Int.add_mul_emod_self_left]

/-- The fundamental wrap symmetry of `Field::vertex`: shifting the row down
by `rows * q` while shifting the column up by `(rows/2) * q` resolves to the
same storage index. -/
theorem vertexIdx_band_shift (F : Field K) (hr : 0 < F.rows) (col row q : ℤ) :
    F.vertexIdx (col + ((F.rows : ℤ) / 2) * q) (row - (F.rows : ℤ) * q)
      = F.vertexIdx col row := by
  have hR : (F.rows : ℤ) ≠ 0 := Nat.cast_ne_zero.mpr hr.ne'
  unfold vertexIdx
  have hmod : (row - (F.rows : ℤ) * q) % (F.rows : ℤ) = row % (F.rows : ℤ) := by
    rw [sub_eq_add_neg, ← mul_neg, Int.add_mul_emod_self_left]
  have hdiv : (row - (F.rows : ℤ) * q) / (F.rows : ℤ) = row / (F.rows : ℤ) - q := by
    rw [sub_eq_add_neg, ← mul_neg, Int.add_mul_ediv_left row (-q) hR]
    ring
  rw [hmod, hdiv]
  refine congrArg₂ Prod.mk rfl ?_
  congr 1
  ring

/-- Same-sample version of `vertexIdx_col_shift`. -/
theorem vertexSample_col_shift (F : Field K) (col row k : ℤ) :
    F.vertexSample (col + (F.cols : ℤ) * k) row = F.vertexSample col row := by
  unfold vertexSample
  rw [vertexIdx_col_shift]

/-- Same-sample version of `vertexIdx_band_shift`. -/
theorem vertexSample_band_shift (F : Field K) (hr : 0 < F.rows) (col row q : ℤ) :
    F.vertexSample (col + ((F.rows : ℤ) / 2) * q) (row - (F.rows : ℤ) * q)
      = F.vertexSample col row := by
  unfold vertexSample
  rw [vertexIdx_band_shift F hr]

end Field

/-! ## Concrete fields used as test instances -/

/-- A concrete 2×3 field over `ℚ` with identity transforms and pairwise
distinct samples `data r c = 10 r + c`. -/
def F2 : Field ℚ :=
  { rows := 2, cols := 3,
    data := fun r c => (r : ℚ) * 10 + (c : ℚ),
    fromSquare := ⟨1, 0, 0, 1⟩, toSquare := ⟨1, 0, 0, 1⟩,
    lowerGrad := lowerGradOf ⟨1, 0, 0, 1⟩, upperGrad := upperGradOf ⟨1, 0, 0, 1⟩ }

/-! ## C3: toroidal vertex wrap -/

/-- C3 counterexample: in the 2×3 field `F2`, `vertex((0, 0 + rows))`
resolves to the stored sample at storage `(0,1)` (value `1`), not to the
sample of `vertex((0,0))` (value `0`): a row shift by a full period `rows`
does *not* return the same stored sample (the column additionally shifts by
`rows/2 = 1`). -/
theorem C3_row_wrap_counterexample :
    F2.rows = 2 ∧ F2.vertexSample 0 (0 + 2) ≠ F2.vertexSample 0 0 := by
  constructor
  · rfl
  · norm_num [Field.vertexSample, Field.vertexIdx, F2]

/-- C3 (amended): column indices wrap modulo `cols` directly, and a row
index shifted by the full period `rows` resolves to the sample of the
column index shifted by `rows/2` (not `cols/2`, and not the same column). -/
theorem C3_vertex_wrap (F : Field ℚ) (hr : 0 < F.rows) (col row : ℤ) :
    F.vertexSample (col + (F.cols : ℤ)) row = F.vertexSample col row ∧
    F.vertexSample col (row + (F.rows : ℤ))
      = F.vertexSample (col + (F.rows : ℤ) / 2) row := by
  constructor
  · have := F.vertexSample_col_shift col row 1
    rwa [mul_one] at this
  · have h0 := F.vertexSample_band_shift hr (col + (F.rows : ℤ) / 2) row (-1)
    have h1 : col + (F.rows : ℤ) / 2 + ((F.rows : ℤ) / 2) * (-1) = col := by ring
    have h2 : row - (F.rows : ℤ) * (-1) = row + (F.rows : ℤ) := by ring
    rw [h1, h2] at h0
    exact h0

/-- C3 witness: the amended wrap rule evaluated on the concrete field `F2`
at index `(0, 0)`. -/
theorem C3_vertex_wrap_witness :
    0 < F2.rows ∧
    (F2.vertexSample (0 + (F2.cols : ℤ)) 0 = F2.vertexSample 0 0 ∧
     F2.vertexSample 0 (0 + (F2.rows : ℤ))
       = F2.vertexSample (0 + (F2.rows : ℤ) / 2) 0) :=
  ⟨by norm_num [F2], C3_vertex_wrap F2 (by norm_num [F2]) 0 0⟩

/-! ## C7: partition of unity -/

/-- C7: the three barycentric coordinates returned by `trig_data` (via
`trig_data_from_square_coords`) sum to `1` and each lies in `[0, 1]`. -/
theorem C7_partition_of_unity (F : Field ℝ) (p : Vec2 ℝ) :
    (F.trigData p).coords.x + (F.trigData p).coords.y + (F.trigData p).coords.z = 1 ∧
    (0 ≤ (F.trigData p).coords.x ∧ (F.trigData p).coords.x ≤ 1) ∧
    (0 ≤ (F.trigData p).coords.y ∧ (F.trigData p).coords.y ≤ 1) ∧
    (0 ≤ (F.trigData p).coords.z ∧ (F.trigData p).coords.z ≤ 1) := by
  simp only [Field.trigData, trigDataFromSquareCoords]
  set s := F.toSquare.mulVec p with hs
  have hu0 : 0 ≤ Int.fract s.x := Int.fract_nonneg _
  have hu1 : Int.fract s.x < 1 := Int.fract_lt_one _
  have hv0 : 0 ≤ Int.fract s.y := Int.fract_nonneg _
  have hv1 : Int.fract s.y < 1 := Int.fract_lt_one _
  split_ifs with h
  · dsimp only
    refine ⟨by ring, ⟨hv0, by linarith⟩, ⟨hu0, by linarith⟩, ⟨by linarith, by linarith⟩⟩
  · dsimp only
    push_neg at h
    refine ⟨by ring, ⟨by linarith, by linarith⟩, ⟨by linarith, by linarith⟩,
      ⟨by linarith, by linarith⟩⟩

/-! ## C10: transposed vertex positions -/

/-- C10: `vertex((col, row))` reports the world position
`from_square_coords * (row, col)` (indices transposed), while
`map_with_coords` (hence `new_from_fun`) samples and stores the value for
storage index `(r, c)` at world position `from_square_coords * (c, r)`;
the 3-D vertices assembled in `cast`'s exact test use the former. -/
theorem C10_transposed_vertex_positions (F : Field ℝ) (col row : ℤ)
    (f : Vec2 ℝ → ℝ → ℝ) (r c : ℕ) (i2 i3 : ℤ × ℤ) :
    (F.vertex (col, row)).1 = F.fromSquare.mulVec ⟨(row : ℝ), (col : ℝ)⟩ ∧
    (F.mapWithCoords f).data r c
      = f (F.fromSquare.mulVec ⟨(c : ℝ), (r : ℝ)⟩) (F.data r c) ∧
    (trigVertices3 F (col, row) i2 i3).1
      = ⟨(F.fromSquare.mulVec ⟨(row : ℝ), (col : ℝ)⟩).x,
         (F.fromSquare.mulVec ⟨(row : ℝ), (col : ℝ)⟩).y,
         F.vertexSample col row⟩ :=
  ⟨rfl, rfl, rfl⟩

/-! ## C2: march bracket -/

/-- C2 counterexample: for the non-rejected vertical ray from `(0,0,10)`
down onto a `min = max = 0` height slab, the source starts the march at
`min(0, min(i_min, i_max)) = 0`, not at the spec's
`max(epsilon, min(i_min, i_max)) = 10`. -/
theorem C2_start_counterexample :
    ¬ (((0 : ℚ) - (10 : ℚ)) / (-1 : ℚ) ≤ 0 ∧ ((0 : ℚ) - (10 : ℚ)) / (-1 : ℚ) ≤ 0) ∧
    castStart (0 : ℚ) 0 ⟨0, 0, 10⟩ ⟨0, 0, -1⟩ = 0 ∧
    specMarchStart (0 : ℚ) 0 ⟨0, 0, 10⟩ ⟨0, 0, -1⟩ = 10 ∧
    castStart (0 : ℚ) 0 ⟨0, 0, 10⟩ ⟨0, 0, -1⟩
      ≠ specMarchStart (0 : ℚ) 0 ⟨0, 0, 10⟩ ⟨0, 0, -1⟩ := by
  refine ⟨by norm_num, ?_, ?_, ?_⟩ <;>
    norm_num [castStart, specMarchStart, epsK]

/-- C2 (amended): for every ray not rejected by the bounding-interval
check, `cast` runs the march loop starting at
`min(0, min(i_min, i_max))` and ending at `min(max(i_min, i_max), 1000)`
(`max_dist = 1000` is hard-coded). -/
theorem C2_march_bracket (sqrtF : ℚ → ℚ) (r : Raycaster ℚ) (pos dir : Vec3 ℚ)
    (h : ¬ ((r.minHeigth - pos.z) / dir.z ≤ 0 ∧ (r.maxHeigth - pos.z) / dir.z ≤ 0)) :
    r.cast sqrtF pos dir
      = castLoop r.field pos dir (coneOpening sqrtF r.maxGradient dir)
          (min (max ((r.minHeigth - pos.z) / dir.z) ((r.maxHeigth - pos.z) / dir.z)) 1000)
          (min 0 (min ((r.minHeigth - pos.z) / dir.z) ((r.maxHeigth - pos.z) / dir.z))) := by
  unfold Raycaster.cast
  rw [if_neg h]
  rfl

/-- C2 witness: the amended bracket at the concrete ray of the
counterexample. -/
theorem C2_march_bracket_witness :
    ¬ (((⟨F2, 0, 0, 0⟩ : Raycaster ℚ).minHeigth - (10 : ℚ)) / (-1 : ℚ) ≤ 0 ∧
        (((⟨F2, 0, 0, 0⟩ : Raycaster ℚ).maxHeigth - (10 : ℚ)) / (-1 : ℚ)) ≤ 0) ∧
    (⟨F2, 0, 0, 0⟩ : Raycaster ℚ).cast id ⟨0, 0, 10⟩ ⟨0, 0, -1⟩
      = castLoop F2 ⟨0, 0, 10⟩ ⟨0, 0, -1⟩ (coneOpening id 0 ⟨0, 0, -1⟩)
          (min (max (((0 : ℚ) - 10) / (-1)) (((0 : ℚ) - 10) / (-1))) 1000)
          (min 0 (min (((0 : ℚ) - 10) / (-1)) (((0 : ℚ) - 10) / (-1)))) :=
  ⟨by norm_num, C2_march_bracket id ⟨F2, 0, 0, 0⟩ ⟨0, 0, 10⟩ ⟨0, 0, -1⟩ (by norm_num)⟩

/-! ## C9: termination of the march loop -/

/-- Auxiliary bound for `castSteps`, by strong induction on the ceiling
measure. -/
theorem castSteps_le_aux (F : Field ℚ) (pos dir : Vec3 ℚ) (cone endP : ℚ) :
    ∀ n : ℕ, ∀ advanced : ℚ, (⌈(endP - advanced) / (epsK : ℚ)⌉).toNat ≤ n →
      advanced ≤ endP →
      ((castSteps F pos dir cone endP advanced : ℚ)) ≤ (endP - advanced) / epsK + 1 := by
  have heps : (0 : ℚ) < epsK := by norm_num [epsK]
  intro n
  induction n with
  | zero =>
    intro a hn ha
    by_cases hlt : a < endP
    · exfalso
      have h1 : (0 : ℚ) < (endP - a) / epsK := div_pos (by linarith) heps
      have h2 : 0 < ⌈(endP - a) / (epsK : ℚ)⌉ := Int.ceil_pos.mpr h1
      omega
    · rw [castSteps, dif_neg hlt]
      have : (0 : ℚ) ≤ (endP - a) / epsK := div_nonneg (by linarith) heps.le
      push_cast
      linarith
  | succ n ih =>
    intro a hn ha
    by_cases hlt : a < endP
    · have hdiv : (0 : ℚ) < (endP - a) / epsK := div_pos (by linarith) heps
      rw [castSteps, dif_pos hlt]
      cases hex : castExactTest F pos dir a with
      | some hit =>
        push_cast
        linarith
      | none =>
        have hstep : epsK ≤ marchStep F pos dir cone a := le_max_right _ _
        set a' := a + marchStep F pos dir cone a with ha'
        have hle : (endP - a') / epsK ≤ (endP - a) / epsK - 1 := by
          rw [div_sub_one (ne_of_gt heps)]
          exact (div_le_div_iff_of_pos_right heps).mpr (by simp only [ha']; linarith)
        by_cases ha'e : a' ≤ endP
        · have hceil : ⌈(endP - a') / (epsK : ℚ)⌉ ≤ ⌈(endP - a) / (epsK : ℚ)⌉ - 1 := by
            have := Int.ceil_le_ceil hle
            rwa [Int.ceil_sub_one] at this
          have hn' : (⌈(endP - a') / (epsK : ℚ)⌉).toNat ≤ n := by omega
          have := ih a' hn' ha'e
          push_cast
          push_cast at this
          linarith
        · push_neg at ha'e
          rw [castSteps, dif_neg (not_lt.mpr ha'e.le)]
          push_cast
          linarith
    · rw [castSteps, dif_neg hlt]
      have : (0 : ℚ) ≤ (endP - a) / epsK := div_nonneg (by linarith) heps.le
      push_cast
      linarith

/-- C9: every march step advances by at least `epsilon = 1e-5` (the
`max(delta, 1e-5)` floor), and the march loop performs at most
`(end - start)/epsilon + 1` iterations; in particular `cast` terminates. -/
theorem C9_termination (F : Field ℚ) (pos dir : Vec3 ℚ) (cone endP advanced : ℚ)
    (h : advanced ≤ endP) :
    epsK ≤ marchStep F pos dir cone advanced ∧
    ((castSteps F pos dir cone endP advanced : ℚ)) ≤ (endP - advanced) / epsK + 1 :=
  ⟨le_max_right _ _,
   castSteps_le_aux F pos dir cone endP (⌈(endP - advanced) / (epsK : ℚ)⌉).toNat advanced
     le_rfl h⟩

/-- C9 witness: the bound instantiated on a concrete degenerate bracket. -/
theorem C9_termination_witness :
    (0 : ℚ) ≤ 0 ∧
    (epsK ≤ marchStep F2 ⟨0, 0, 5⟩ ⟨1, 0, 0⟩ 1 0 ∧
     ((castSteps F2 ⟨0, 0, 5⟩ ⟨1, 0, 0⟩ 1 0 0 : ℚ)) ≤ ((0 : ℚ) - 0) / epsK + 1) :=
  ⟨le_rfl, C9_termination F2 ⟨0, 0, 5⟩ ⟨1, 0, 0⟩ 1 0 0 le_rfl⟩

/-! ## C1: the march advance near triangle edges -/

/-- A concrete 2×2 field with identity transforms: one elevated sample
(`data 1 1 = 3`), all other samples `0`. -/
def F1 (K : Type) [LinearOrderedField K] : Field K :=
  { rows := 2, cols := 2,
    data := fun r c => if r = 1 ∧ c = 1 then 3 else 0,
    fromSquare := ⟨1, 0, 0, 1⟩, toSquare := ⟨1, 0, 0, 1⟩,
    lowerGrad := lowerGradOf ⟨1, 0, 0, 1⟩, upperGrad := upperGradOf ⟨1, 0, 0, 1⟩ }

/-- C1 (amended): when the exact triangle test fails, the march advances by
exactly `max(cone_opening * |t_height - current_z|, 1e-5)` — the cone bound
alone, floored at epsilon; no per-edge raising of `delta` takes place. -/
theorem C1_march_step {K : Type} [LinearOrderedField K] [FloorRing K]
    (F : Field K) (pos dir : Vec3 K) (cone endP advanced : K)
    (hlt : advanced < endP) (hmiss : castExactTest F pos dir advanced = none) :
    castLoop F pos dir cone endP advanced
      = castLoop F pos dir cone endP
          (advanced
            + max (cone * |marchHeight F pos dir advanced
                            - (pos.add (Vec3.smul advanced dir)).z|) epsK) := by
  conv_lhs => rw [castLoop]
  rw [dif_pos hlt, hmiss]
  rfl

/-- C1 witness for the amended step rule: a concrete missed exact test with
the cone-bound advance. -/
theorem C1_march_step_witness :
    (0 : ℚ) < 1 ∧ castExactTest (F1 ℚ) ⟨1/4, 1/4, 1/100⟩ ⟨1, 0, -1/100⟩ 0 = none ∧
    castLoop (F1 ℚ) ⟨1/4, 1/4, 1/100⟩ ⟨1, 0, -1/100⟩ 7 1 0
      = castLoop (F1 ℚ) ⟨1/4, 1/4, 1/100⟩ ⟨1, 0, -1/100⟩ 7 1
          (0 + max (7 * |marchHeight (F1 ℚ) ⟨1/4, 1/4, 1/100⟩ ⟨1, 0, -1/100⟩ 0
                  - ((⟨1/4, 1/4, 1/100⟩ : Vec3 ℚ).add
                      (Vec3.smul 0 ⟨1, 0, -1/100⟩)).z|) epsK) := by
  have hmiss : castExactTest (F1 ℚ) ⟨1/4, 1/4, 1/100⟩ ⟨1, 0, -1/100⟩ 0 = none := by
    norm_num [castExactTest, Field.trigData, trigDataFromSquareCoords, F1, Mat2.mulVec,
      Vec3.add, Vec3.smul, Vec3.xy, Vec3.sub, Vec3.neg, lowerTrig, upperTrig,
      trigVertices3, Field.vertex, Field.vertexSample, Field.vertexIdx,
      solve3, det3, Int.fract]
  exact ⟨by norm_num, hmiss,
    C1_march_step (F1 ℚ) ⟨1/4, 1/4, 1/100⟩ ⟨1, 0, -1/100⟩ 7 1 0 (by norm_num) hmiss⟩

/-- C1 counterexample: at the march state `advanced = 0` of the ray
`pos = (1/4, 1/4, 1/100)`, `dir = (1, 0, -1/100)` over `F1` (whose
Lipschitz bound is `√18`), the exact test fails, the spec's 2×2 edge
intersection with the current triangle's first edge is on-segment
(`u = 1/4 ∈ [0,1]`) and ahead of the ray (`t = 1/2 > 0`), yet the advance
`delta = cone_opening * |t_height - current_z| < 1/2` is *not* raised to at
least `t`: the source contains no edge-raising step. -/
theorem C1_no_edge_guard_counterexample :
    castExactTest (F1 ℝ) ⟨1/4, 1/4, 1/100⟩ ⟨1, 0, -1/100⟩ 0 = none ∧
    (F1 ℝ).trigData ⟨1/4, 1/4⟩
      = ⟨(0, 1), (1, 0), (0, 0), ⟨1/4, 1/4, 1/2⟩, TrigType.Lower⟩ ∧
    trigVertices3 (F1 ℝ) (0, 1) (1, 0) (0, 0) = (⟨1, 0, 0⟩, ⟨0, 1, 0⟩, ⟨0, 0, 0⟩) ∧
    (F1 ℝ).maxGradient Real.sqrt = Real.sqrt 18 ∧
    specEdgeIntersect (⟨1/4, 1/4, 1/100⟩ : Vec3 ℝ) ⟨1, 0, -1/100⟩ ⟨1, 0, 0⟩ ⟨0, 1, 0⟩
      = some (1/2, 1/4) ∧
    ((0 : ℝ) < 1/2 ∧ (0 : ℝ) ≤ 1/4 ∧ (1/4 : ℝ) ≤ 1) ∧
    coneOpening Real.sqrt ((F1 ℝ).maxGradient Real.sqrt) ⟨1, 0, -1/100⟩
        * |marchHeight (F1 ℝ) ⟨1/4, 1/4, 1/100⟩ ⟨1, 0, -1/100⟩ 0
            - ((⟨1/4, 1/4, 1/100⟩ : Vec3 ℝ).add (Vec3.smul 0 ⟨1, 0, -1/100⟩)).z|
      < 1/2 := by
  have hsq1 : (1 : ℝ) ≤ Real.sqrt 18 := by
    rw [show (1 : ℝ) = Real.sqrt 1 from Real.sqrt_one.symm]
    exact Real.sqrt_le_sqrt (by norm_num)
  have htd : (F1 ℝ).trigData ⟨1/4, 1/4⟩
      = ⟨(0, 1), (1, 0), (0, 0), ⟨1/4, 1/4, 1/2⟩, TrigType.Lower⟩ := by
    norm_num [Field.trigData, trigDataFromSquareCoords, F1, Mat2.mulVec, Int.fract,
      lowerTrig]
  have hverts : trigVertices3 (F1 ℝ) (0, 1) (1, 0) (0, 0)
      = (⟨1, 0, 0⟩, ⟨0, 1, 0⟩, ⟨0, 0, 0⟩) := by
    norm_num [trigVertices3, Field.vertex, Field.vertexSample, Field.vertexIdx, F1,
      Mat2.mulVec, Prod.ext_iff]
  have hmiss : castExactTest (F1 ℝ) ⟨1/4, 1/4, 1/100⟩ ⟨1, 0, -1/100⟩ 0 = none := by
    norm_num [castExactTest, Field.trigData, trigDataFromSquareCoords, F1, Mat2.mulVec,
      Vec3.add, Vec3.smul, Vec3.xy, Vec3.sub, Vec3.neg, lowerTrig, upperTrig,
      trigVertices3, Field.vertex, Field.vertexSample, Field.vertexIdx,
      solve3, det3, Int.fract]
  have htl : (F1 ℝ).trigList =
      [(((0, 1), (1, 0), (0, 0)), TrigType.Lower),
       (((0, 1), (1, 1), (1, 0)), TrigType.Upper),
       (((1, 1), (2, 0), (1, 0)), TrigType.Lower),
       (((1, 1), (2, 1), (2, 0)), TrigType.Upper),
       (((0, 2), (1, 1), (0, 1)), TrigType.Lower),
       (((0, 2), (1, 2), (1, 1)), TrigType.Upper),
       (((1, 2), (2, 1), (1, 1)), TrigType.Lower),
       (((1, 2), (2, 2), (2, 1)), TrigType.Upper)] := by
    decide
  have hmax : (F1 ℝ).maxGradient Real.sqrt = Real.sqrt 18 := by
    rw [Field.maxGradient, htl]
    norm_num [Field.trigGradient, Field.vertexSample, Field.vertexIdx,
      Field.trigCoordGrads, F1, lowerGradOf, upperGradOf, Mat2.transpose, Mat2.mulVec,
      Vec2.normSq, listMax, max_def]
  have hspec : specEdgeIntersect (⟨1/4, 1/4, 1/100⟩ : Vec3 ℝ) ⟨1, 0, -1/100⟩
      ⟨1, 0, 0⟩ ⟨0, 1, 0⟩ = some (1/2, 1/4) := by
    norm_num [specEdgeIntersect, Vec3.xy, Vec2.sub, Prod.ext_iff]
  have hmh : marchHeight (F1 ℝ) ⟨1/4, 1/4, 1/100⟩ ⟨1, 0, -1/100⟩ 0 = 0 := by
    norm_num [marchHeight, Field.trigData, trigDataFromSquareCoords, F1, Mat2.mulVec,
      Vec3.add, Vec3.smul, Vec3.xy, lowerTrig, upperTrig, trigVertices3, Field.vertex,
      Field.vertexSample, Field.vertexIdx, Int.fract]
  refine ⟨hmiss, htd, hverts, hmax, hspec, ⟨by norm_num, by norm_num, by norm_num⟩, ?_⟩
  rw [hmax, hmh]
  have hxy : Vec2.normSq (Vec3.xy (⟨1, 0, -1/100⟩ : Vec3 ℝ)) = 1 := by
    norm_num [Vec3.xy, Vec2.normSq]
  rw [coneOpening, hxy, Real.sqrt_one]
  norm_num [Vec3.add, Vec3.smul]
  have hpos : (0 : ℝ) < 1/100 + Real.sqrt 18 := by linarith
  have habs : |(1/100 : ℝ)| = 1/100 := abs_of_pos (by norm_num)
  rw [habs, ← div_eq_inv_mul, div_lt_iff hpos]
  linarith

/-! ## C4: construction-time validation -/

/-- Lemma: `try_inverse` succeeds exactly on a nonvanishing determinant. -/
theorem Mat2.inverse2_isSome {m : Mat2 K} (h : m.det ≠ 0) :
    ∃ t, m.inverse2 = some t :=
  ⟨_, by rw [Mat2.inverse2, if_neg h]⟩

/-- Helper: `sqrt 3 ≤ 2`. -/
theorem sqrt_three_le_two : Real.sqrt 3 ≤ 2 := by
  rw [show (2 : ℝ) = Real.sqrt 4 from ?_]
  · exact Real.sqrt_le_sqrt (by norm_num)
  · rw [show (4 : ℝ) = 2 ^ 2 by norm_num, Real.sqrt_sq (by norm_num)]

/-- Helper: the row bracket of the all-negative input `(-2, -2, -1)` is at
least one, so its grid has a full row band. -/
theorem negParamsRowBracket : (1 : ℝ) ≤ (-2 : ℝ) * (1 / Real.sqrt 3) / (-1) := by
  have h3 : (0 : ℝ) < Real.sqrt 3 := Real.sqrt_pos.mpr (by norm_num)
  rw [show (-2 : ℝ) * (1 / Real.sqrt 3) / (-1) = 2 / Real.sqrt 3 from by ring,
    le_div_iff h3]
  have h := sqrt_three_le_two
  linarith

/-- Helper: whenever both computed grid dimensions are at least `1`
(equivalently `1 ≤ tile_x/res` and `1 ≤ tile_y·(1/√3)/res`, conditions that
carry no sign restriction), the spacings are nonzero, the shear matrix is
invertible, and `Field::new` returns the field — it performs no validation
whatsoever. -/
theorem Field.new_isSome (tx ty res : ℝ)
    (hcols : 1 ≤ tx / res) (hrows : 1 ≤ ty * (1 / Real.sqrt 3) / res) :
    ∃ F0, Field.new Real.sqrt tx ty res = some F0 := by
  have h3 : (0 : ℝ) < Real.sqrt 3 := Real.sqrt_pos.mpr (by norm_num)
  have htx : tx ≠ 0 := by
    intro h
    rw [h, zero_div] at hcols
    linarith
  have hty : ty ≠ 0 := by
    intro h
    rw [h, zero_mul, zero_div] at hrows
    linarith
  have hcols1 : 1 ≤ (⌊tx / res⌋).toNat := by
    have h : (1 : ℤ) ≤ ⌊tx / res⌋ := Int.le_floor.mpr (by exact_mod_cast hcols)
    omega
  have hrows1 : 1 ≤ (⌊ty * (1 / Real.sqrt 3) / res⌋).toNat := by
    have h : (1 : ℤ) ≤ ⌊ty * (1 / Real.sqrt 3) / res⌋ :=
      Int.le_floor.mpr (by exact_mod_cast hrows)
    omega
  have hcK : ((⌊tx / res⌋).toNat : ℝ) ≠ 0 := by
    have h : (0 : ℕ) < (⌊tx / res⌋).toNat := hcols1
    exact_mod_cast h.ne'
  have hrK : (((⌊ty * (1 / Real.sqrt 3) / res⌋).toNat * 2 : ℕ) : ℝ) ≠ 0 := by
    have h : (0 : ℕ) < (⌊ty * (1 / Real.sqrt 3) / res⌋).toNat * 2 := by omega
    exact_mod_cast h.ne'
  have hdx : tx / ((⌊tx / res⌋).toNat : ℝ) ≠ 0 := div_ne_zero htx hcK
  have hdy : ty * (2 / Real.sqrt 3) / (((⌊ty * (1 / Real.sqrt 3) / res⌋).toNat * 2 : ℕ) : ℝ)
      ≠ 0 :=
    div_ne_zero (mul_ne_zero hty (div_ne_zero two_ne_zero h3.ne')) hrK
  simp only [Field.new]
  have hdet : (Mat2.mul
      (⟨tx / ((⌊tx / res⌋).toNat : ℝ), 0, 0,
        ty * (2 / Real.sqrt 3) / (((⌊ty * (1 / Real.sqrt 3) / res⌋).toNat * 2 : ℕ) : ℝ)⟩ :
        Mat2 ℝ)
      ⟨1, 1/2, 0, Real.sqrt 3 / 2⟩).det ≠ 0 := by
    have heq : (Mat2.mul
        (⟨tx / ((⌊tx / res⌋).toNat : ℝ), 0, 0,
          ty * (2 / Real.sqrt 3) / (((⌊ty * (1 / Real.sqrt 3) / res⌋).toNat * 2 : ℕ) : ℝ)⟩ :
          Mat2 ℝ)
        ⟨1, 1/2, 0, Real.sqrt 3 / 2⟩).det
        = tx / ((⌊tx / res⌋).toNat : ℝ)
          * (ty * (2 / Real.sqrt 3) / (((⌊ty * (1 / Real.sqrt 3) / res⌋).toNat * 2 : ℕ) : ℝ)
            * (Real.sqrt 3 / 2)) := by
      simp only [Mat2.mul, Mat2.det]
      ring
    rw [heq]
    exact mul_ne_zero hdx (mul_ne_zero hdy (div_ne_zero h3.ne' two_ne_zero))
  obtain ⟨t, ht⟩ := Mat2.inverse2_isSome hdet
  rw [ht]
  exact ⟨_, rfl⟩

/-- C4 counterexample: all three construction parameters are non-positive
(`tile_x = tile_y = -2`, `res = -1`) — inputs the claim says must be
rejected with a construction failure surfaced before the transform matrices
are built — yet the computed grid is `2 × 2`, every spacing is finite and
nonzero (`d_x = -1`, `d_y = -2/√3`), the shear matrix is invertible, and
`Field::new` silently returns the field.  The source performs no validation
and its signature (`-> Self`) has no failure channel at all, so nothing is
ever "surfaced to the caller". -/
theorem C4_silent_acceptance_counterexample :
    ((-2 : ℝ) < 0 ∧ (-2 : ℝ) < 0 ∧ (-1 : ℝ) < 0) ∧
    ∃ F0, Field.new Real.sqrt (-2) (-2) (-1) = some F0 :=
  ⟨⟨by norm_num, by norm_num, by norm_num⟩,
   Field.new_isSome (-2) (-2) (-1) (by norm_num) negParamsRowBracket⟩

/-- C4 (amended): `Field::new` performs no input validation and surfaces no
construction error to the caller (its signature returns `Self`, not a
result type): whenever the computed grid has at least one cell in each
direction — `1 ≤ tile_x/res` and `1 ≤ tile_y·(1/√3)/res`, conditions
satisfiable with every parameter negative — the transforms are finite and
invertible and the field is returned directly, regardless of parameter
signs. -/
theorem C4_new_builds (tx ty res : ℝ)
    (hcols : 1 ≤ tx / res) (hrows : 1 ≤ ty * (1 / Real.sqrt 3) / res) :
    ∃ F0, Field.new Real.sqrt tx ty res = some F0 :=
  Field.new_isSome tx ty res hcols hrows

/-- C4 witness: the no-validation construction exercised at the
all-negative input `(-2, -2, -1)`. -/
theorem C4_new_builds_witness :
    (1 : ℝ) ≤ (-2 : ℝ) / (-1) ∧ (1 : ℝ) ≤ (-2 : ℝ) * (1 / Real.sqrt 3) / (-1) ∧
    ∃ F0, Field.new Real.sqrt (-2) (-2) (-1) = some F0 :=
  ⟨by norm_num, negParamsRowBracket,
   C4_new_builds (-2) (-2) (-1) (by norm_num) negParamsRowBracket⟩

/-! ## C5: raycast on a flat field -/

/-- Folding `max` over a constant list yields the constant. -/
theorem foldl_max_const {c : K} :
    ∀ (l : List K) (acc : K), (∀ x ∈ l, x = c) → acc = c → l.foldl max acc = c := by
  intro l
  induction l with
  | nil => intro acc _ hacc; simpa using hacc
  | cons y ys ih =>
    intro acc hall hacc
    have hy : y = c := hall y (by simp)
    simp only [List.foldl_cons]
    exact ih (max acc y) (fun x hx => hall x (by simp [hx])) (by rw [hacc, hy, max_self])

/-- Folding `min` over a constant list yields the constant. -/
theorem foldl_min_const {c : K} :
    ∀ (l : List K) (acc : K), (∀ x ∈ l, x = c) → acc = c → l.foldl min acc = c := by
  intro l
  induction l with
  | nil => intro acc _ hacc; simpa using hacc
  | cons y ys ih =>
    intro acc hall hacc
    have hy : y = c := hall y (by simp)
    simp only [List.foldl_cons]
    exact ih (min acc y) (fun x hx => hall x (by simp [hx])) (by rw [hacc, hy, min_self])

/-- Value of `listMax` on a nonempty constant list. -/
theorem listMax_const {c : K} (l : List K) (hall : ∀ x ∈ l, x = c) (hne : l ≠ []) :
    listMax l = c := by
  cases l with
  | nil => exact absurd rfl hne
  | cons x xs =>
    simp only [listMax]
    exact foldl_max_const xs x (fun y hy => hall y (by simp [hy])) (hall x (by simp))

/-- Value of `listMin` on a nonempty constant list. -/
theorem listMin_const {c : K} (l : List K) (hall : ∀ x ∈ l, x = c) (hne : l ≠ []) :
    listMin l = c := by
  cases l with
  | nil => exact absurd rfl hne
  | cons x xs =>
    simp only [listMin]
    exact foldl_min_const xs x (fun y hy => hall y (by simp [hy])) (hall x (by simp))

/-- Every element of the grid-iteration list of a constant field is the
constant. -/
theorem dataList_const (F : Field K) (h0 : K) (hdata : ∀ r c, F.data r c = h0) :
    ∀ x ∈ F.dataList, x = h0 := by
  intro x hx
  simp only [Field.dataList, List.mem_flatMap, List.mem_map, List.mem_range] at hx
  obtain ⟨r, _, c, _, rfl⟩ := hx
  exact hdata r c

/-- A positive grid has a nonempty iteration list. -/
theorem dataList_ne_nil (F : Field K) (hr : 0 < F.rows) (hc : 0 < F.cols) :
    F.dataList ≠ [] := by
  apply List.ne_nil_of_mem (a := F.data 0 0)
  simp only [Field.dataList, List.mem_flatMap, List.mem_map, List.mem_range]
  exact ⟨0, hr, 0, hc, rfl⟩

/-- C5 (amended): on a field of constant height `h0`, the vertical ray from
`(0,0,h0+10)` straight down hits `(0,0,h0)`; a ray from *above* the slab
pointing upward (`dir.z > 0`, `pos.z > h0`) is rejected by the bounding
interval and yields `none`.  (A ray from *below* the slab pointing upward is
not rejected and hits the underside — see the counterexample.) -/
theorem C5_flat_field_cast (sqrtF : ℝ → ℝ) (F : Field ℝ) (h0 : ℝ)
    (hdata : ∀ r c, F.data r c = h0) (hr : 0 < F.rows) (hc : 0 < F.cols)
    (hdet : F.fromSquare.det ≠ 0) :
    (F.raycaster sqrtF).cast sqrtF ⟨0, 0, h0 + 10⟩ ⟨0, 0, -1⟩ = some ⟨0, 0, h0⟩ ∧
    (∀ pos dir : Vec3 ℝ, 0 < dir.z → h0 < pos.z →
      (F.raycaster sqrtF).cast sqrtF pos dir = none) := by
  have hminL : listMin F.dataList = h0 :=
    listMin_const _ (dataList_const F h0 hdata) (dataList_ne_nil F hr hc)
  have hmaxL : listMax F.dataList = h0 :=
    listMax_const _ (dataList_const F h0 hdata) (dataList_ne_nil F hr hc)
  have hray : F.raycaster sqrtF = ⟨F, h0, h0, F.maxGradient sqrtF⟩ := by
    rw [Field.raycaster, hminL, hmaxL]
  constructor
  · -- the vertical downward ray
    have htd : F.trigData ⟨0, 0⟩ = ⟨(0, 1), (1, 0), (0, 0), ⟨0, 0, 1⟩, TrigType.Lower⟩ := by
      have hmv : F.toSquare.mulVec ⟨0, 0⟩ = ⟨0, 0⟩ := by
        simp [Mat2.mulVec]
      rw [Field.trigData, hmv]
      norm_num [trigDataFromSquareCoords, Int.fract, lowerTrig]
    have hv : trigVertices3 F (0, 1) (1, 0) (0, 0)
        = (⟨F.fromSquare.a, F.fromSquare.c, h0⟩, ⟨F.fromSquare.b, F.fromSquare.d, h0⟩,
           ⟨0, 0, h0⟩) := by
      simp [trigVertices3, Field.vertex, Mat2.mulVec, Field.vertexSample, hdata,
        Prod.ext_iff]
    have hexact : castExactTest F ⟨0, 0, h0 + 10⟩ ⟨0, 0, -1⟩ 0 = some ⟨0, 0, h0⟩ := by
      have hcur : (⟨0, 0, h0 + 10⟩ : Vec3 ℝ).add (Vec3.smul 0 ⟨0, 0, -1⟩)
          = ⟨0, 0, h0 + 10⟩ := by
        simp [Vec3.add, Vec3.smul]
      have hxy : (⟨0, 0, h0 + 10⟩ : Vec3 ℝ).xy = ⟨0, 0⟩ := rfl
      simp only [castExactTest, hcur, hxy, htd, hv]
      have e1 : det3 (Vec3.neg ⟨0, 0, -1⟩)
          (Vec3.sub ⟨F.fromSquare.b, F.fromSquare.d, h0⟩ ⟨F.fromSquare.a, F.fromSquare.c, h0⟩)
          (Vec3.sub ⟨0, 0, h0⟩ ⟨F.fromSquare.a, F.fromSquare.c, h0⟩)
          = F.fromSquare.det := by
        simp only [det3, Vec3.neg, Vec3.sub, Mat2.det]
        ring
      have e2 : det3 (Vec3.sub ⟨0, 0, h0 + 10⟩ ⟨F.fromSquare.a, F.fromSquare.c, h0⟩)
          (Vec3.sub ⟨F.fromSquare.b, F.fromSquare.d, h0⟩ ⟨F.fromSquare.a, F.fromSquare.c, h0⟩)
          (Vec3.sub ⟨0, 0, h0⟩ ⟨F.fromSquare.a, F.fromSquare.c, h0⟩)
          = 10 * F.fromSquare.det := by
        simp only [det3, Vec3.sub, Mat2.det]
        ring
      have e3 : det3 (Vec3.neg ⟨0, 0, -1⟩)
          (Vec3.sub ⟨0, 0, h0 + 10⟩ ⟨F.fromSquare.a, F.fromSquare.c, h0⟩)
          (Vec3.sub ⟨0, 0, h0⟩ ⟨F.fromSquare.a, F.fromSquare.c, h0⟩) = 0 := by
        simp only [det3, Vec3.neg, Vec3.sub]
        ring
      have e4 : det3 (Vec3.neg ⟨0, 0, -1⟩)
          (Vec3.sub ⟨F.fromSquare.b, F.fromSquare.d, h0⟩ ⟨F.fromSquare.a, F.fromSquare.c, h0⟩)
          (Vec3.sub ⟨0, 0, h0 + 10⟩ ⟨F.fromSquare.a, F.fromSquare.c, h0⟩)
          = F.fromSquare.det := by
        simp only [det3, Vec3.neg, Vec3.sub, Mat2.det]
        ring
      rw [solve3, if_neg (by rw [e1]; exact hdet), e1, e2, e3, e4,
        mul_div_cancel_right₀ 10 hdet, zero_div, div_self hdet]
      dsimp only
      rw [if_pos (by norm_num)]
      simp only [Vec3.add, Vec3.smul, Option.some.injEq, Vec3.mk.injEq]
      exact ⟨by ring, by ring, by ring⟩
    rw [hray, Raycaster.cast]
    have hdiv : (h0 - (h0 + 10)) / (-1 : ℝ) = 10 := by ring
    simp only [hdiv]
    rw [if_neg (by norm_num)]
    have hst : castStart h0 h0 ⟨0, 0, h0 + 10⟩ ⟨0, 0, -1⟩ = 0 := by
      simp only [castStart, hdiv, min_self]
      norm_num [min_def]
    have hen : castEnd h0 h0 ⟨0, 0, h0 + 10⟩ ⟨0, 0, -1⟩ = 10 := by
      simp only [castEnd, hdiv, max_self]
      norm_num [min_def]
    rw [hst, hen, castLoop, dif_pos (by norm_num : (0 : ℝ) < 10), hexact]
  · -- upward ray from above the slab
    intro pos dir hz hpz
    rw [hray, Raycaster.cast]
    have : (h0 - pos.z) / dir.z ≤ 0 :=
      le_of_lt (div_neg_of_neg_of_pos (by linarith) hz)
    rw [if_pos ⟨this, this⟩]

/-- A concrete constant-zero 2×2 field with identity transforms. -/
def F0 (K : Type) [LinearOrderedField K] : Field K :=
  { rows := 2, cols := 2, data := fun _ _ => 0,
    fromSquare := ⟨1, 0, 0, 1⟩, toSquare := ⟨1, 0, 0, 1⟩,
    lowerGrad := lowerGradOf ⟨1, 0, 0, 1⟩, upperGrad := upperGradOf ⟨1, 0, 0, 1⟩ }

/-- C5 counterexample: on the constant-zero field, the upward ray
(`dir.z = 1 > 0`) from `(0,0,-10)` *below* the height slab
(`pos.z = -10 < min_height = 0`) is **not** rejected and returns
`some (0,0,0)` — the underside hit — not `none` as the claim states. -/
theorem C5_upward_from_below_counterexample :
    ((F0 ℝ).raycaster Real.sqrt).minHeigth = 0 ∧ ((-10 : ℝ) < 0) ∧ ((0 : ℝ) < 1) ∧
    ((F0 ℝ).raycaster Real.sqrt).cast Real.sqrt ⟨0, 0, -10⟩ ⟨0, 0, 1⟩ = some ⟨0, 0, 0⟩ := by
  have hall : ∀ x ∈ (F0 ℝ).dataList, x = 0 := dataList_const (F0 ℝ) 0 (fun _ _ => rfl)
  have hne : (F0 ℝ).dataList ≠ [] :=
    dataList_ne_nil (F0 ℝ) (by norm_num [F0]) (by norm_num [F0])
  have hminL : listMin (F0 ℝ).dataList = 0 := listMin_const _ hall hne
  have hmaxL : listMax (F0 ℝ).dataList = 0 := listMax_const _ hall hne
  have hray : (F0 ℝ).raycaster Real.sqrt = ⟨(F0 ℝ), 0, 0, (F0 ℝ).maxGradient Real.sqrt⟩ := by
    rw [Field.raycaster, hminL, hmaxL]
  have hexact : castExactTest (F0 ℝ) ⟨0, 0, -10⟩ ⟨0, 0, 1⟩ 0 = some ⟨0, 0, 0⟩ := by
    norm_num [castExactTest, Field.trigData, trigDataFromSquareCoords, F0, Mat2.mulVec,
      Vec3.add, Vec3.smul, Vec3.xy, Vec3.sub, Vec3.neg, lowerTrig, upperTrig,
      trigVertices3, Field.vertex, Field.vertexSample, Field.vertexIdx,
      solve3, det3, Int.fract]
  refine ⟨by rw [hray], by norm_num, by norm_num, ?_⟩
  rw [hray, Raycaster.cast]
  rw [if_neg (by norm_num)]
  have hst : castStart (0 : ℝ) 0 ⟨0, 0, -10⟩ ⟨0, 0, 1⟩ = 0 := by
    norm_num [castStart, min_def]
  have hen : castEnd (0 : ℝ) 0 ⟨0, 0, -10⟩ ⟨0, 0, 1⟩ = 10 := by
    norm_num [castEnd, min_def, max_def]
  rw [hst, hen, castLoop, dif_pos (by norm_num : (0 : ℝ) < 10), hexact]

/-- C5 witness: the amended flat-plane behaviour on the concrete
constant-zero field. -/
theorem C5_flat_field_cast_witness :
    (∀ r c, (F0 ℝ).data r c = 0) ∧ 0 < (F0 ℝ).rows ∧ 0 < (F0 ℝ).cols ∧
    (F0 ℝ).fromSquare.det ≠ 0 ∧
    ((F0 ℝ).raycaster Real.sqrt).cast Real.sqrt ⟨0, 0, (0 : ℝ) + 10⟩ ⟨0, 0, -1⟩
      = some ⟨0, 0, 0⟩ ∧
    ((F0 ℝ).raycaster Real.sqrt).cast Real.sqrt ⟨0, 0, 5⟩ ⟨0, 0, 1⟩ = none := by
  have h := C5_flat_field_cast Real.sqrt (F0 ℝ) 0 (fun _ _ => rfl)
    (by norm_num [F0]) (by norm_num [F0]) (by norm_num [F0, Mat2.det])
  exact ⟨fun _ _ => rfl, by norm_num [F0], by norm_num [F0],
    by norm_num [F0, Mat2.det], h.1,
    h.2 ⟨0, 0, 5⟩ ⟨0, 0, 1⟩ (by norm_num) (by norm_num)⟩

/-! ## C6: periodicity of `value` -/

/-- Interpolation in square coordinates is invariant under any integer lattice
translation `(a, b)` under which the toroidal vertex lookup is invariant. -/
theorem squareValue_shift (F : Field ℝ) (s : Vec2 ℝ) (a b : ℤ)
    (hshift : ∀ c r : ℤ, F.vertexSample (c + a) (r + b) = F.vertexSample c r) :
    F.squareValue ⟨s.x + (a : ℝ), s.y + (b : ℝ)⟩ = F.squareValue s := by
  unfold Field.squareValue trigDataFromSquareCoords
  simp only [Int.floor_add_int, Int.fract_add_int]
  split_ifs with h
  · dsimp only [lowerTrig]
    rw [show ⌊s.y⌋ + b + 1 = ⌊s.y⌋ + 1 + b from by ring,
        show ⌊s.x⌋ + a + 1 = ⌊s.x⌋ + 1 + a from by ring,
        hshift, hshift, hshift]
  · dsimp only [upperTrig]
    rw [show ⌊s.y⌋ + b + 1 = ⌊s.y⌋ + 1 + b from by ring,
        show ⌊s.x⌋ + a + 1 = ⌊s.x⌋ + 1 + a from by ring,
        hshift, hshift, hshift]

/-- Matrix–vector products distribute over componentwise vector sums. -/
theorem Mat2.mulVec_add (m : Mat2 K) (u v : Vec2 K) :
    m.mulVec ⟨u.x + v.x, u.y + v.y⟩
      = ⟨(m.mulVec u).x + (m.mulVec v).x, (m.mulVec u).y + (m.mulVec v).y⟩ := by
  simp only [Mat2.mulVec, Vec2.mk.injEq]
  exact ⟨by ring, by ring⟩

/-- C6: for every field whose square transform maps the tile translations
to the lattice translations `(cols, 0)` and `(-rows/2, rows)` (as the
`new`-built transforms do), the interpolated surface is exactly periodic
across both tile boundaries. -/
theorem C6_periodicity (F : Field ℝ) (tx ty : ℝ) (hr : 0 < F.rows)
    (hx : F.toSquare.mulVec ⟨tx, 0⟩ = ⟨(F.cols : ℝ), 0⟩)
    (hy : F.toSquare.mulVec ⟨0, ty⟩ = ⟨-((F.rows / 2 : ℕ) : ℝ), (F.rows : ℝ)⟩)
    (p : Vec2 ℝ) :
    F.value ⟨p.x + tx, p.y⟩ = F.value p ∧ F.value ⟨p.x, p.y + ty⟩ = F.value p := by
  constructor
  · have h1 : F.toSquare.mulVec ⟨p.x + tx, p.y⟩
        = ⟨(F.toSquare.mulVec p).x + ((F.cols : ℤ) : ℝ),
           (F.toSquare.mulVec p).y + ((0 : ℤ) : ℝ)⟩ := by
      have := F.toSquare.mulVec_add p ⟨tx, 0⟩
      rw [hx] at this
      rw [show (⟨p.x + tx, p.y⟩ : Vec2 ℝ) = ⟨p.x + tx, p.y + 0⟩ from by rw [add_zero]]
      rw [this]
      push_cast
      rfl
    rw [Field.value, h1, squareValue_shift F _ (F.cols : ℤ) 0 ?_]
    · rfl
    · intro c r
      have h2 := F.vertexSample_col_shift c r 1
      rw [mul_one] at h2
      rwa [add_zero]
  · have h1 : F.toSquare.mulVec ⟨p.x, p.y + ty⟩
        = ⟨(F.toSquare.mulVec p).x + ((-(F.rows / 2 : ℕ) : ℤ) : ℝ),
           (F.toSquare.mulVec p).y + ((F.rows : ℤ) : ℝ)⟩ := by
      have := F.toSquare.mulVec_add p ⟨0, ty⟩
      rw [hy] at this
      rw [show (⟨p.x, p.y + ty⟩ : Vec2 ℝ) = ⟨p.x + 0, p.y + ty⟩ from by rw [add_zero]]
      rw [this]
      push_cast
      rfl
    rw [Field.value, h1, squareValue_shift F _ (-(F.rows / 2 : ℕ) : ℤ) (F.rows : ℤ) ?_]
    · rfl
    · intro c r
      have hH : ((F.rows / 2 : ℕ) : ℤ) = (F.rows : ℤ) / 2 := by omega
      have h2 := F.vertexSample_band_shift hr c r (-1)
      rw [show c + ((F.rows : ℤ) / 2) * (-1) = c + -((F.rows : ℤ) / 2) from by ring,
          show r - (F.rows : ℤ) * (-1) = r + (F.rows : ℤ) from by ring] at h2
      rwa [hH]

/-- A concrete 2×2 field with the `new`-style sheared transforms made
rational (`from_square = [[1/2, 1/4], [0, 1/2]]`, inverse `[[2, -1], [0, 2]]`),
for tile sizes `tile_x = tile_y = 1`. -/
def F6 (K : Type) [LinearOrderedField K] : Field K :=
  { rows := 2, cols := 2,
    data := fun r c => (r : K) * 2 + (c : K) + 1,
    fromSquare := ⟨1/2, 1/4, 0, 1/2⟩, toSquare := ⟨2, -1, 0, 2⟩,
    lowerGrad := lowerGradOf ⟨2, -1, 0, 2⟩, upperGrad := upperGradOf ⟨2, -1, 0, 2⟩ }

/-- C6 witness: periodicity on the concrete sheared field at `p = (0, 0)`,
`tile_x = tile_y = 1`. -/
theorem C6_periodicity_witness :
    0 < (F6 ℝ).rows ∧
    (F6 ℝ).toSquare.mulVec ⟨1, 0⟩ = ⟨((F6 ℝ).cols : ℝ), 0⟩ ∧
    (F6 ℝ).toSquare.mulVec ⟨0, 1⟩ = ⟨-(((F6 ℝ).rows / 2 : ℕ) : ℝ), ((F6 ℝ).rows : ℝ)⟩ ∧
    ((F6 ℝ).value ⟨(0 : ℝ) + 1, 0⟩ = (F6 ℝ).value ⟨0, 0⟩ ∧
     (F6 ℝ).value ⟨(0 : ℝ), 0 + 1⟩ = (F6 ℝ).value ⟨0, 0⟩) := by
  have hx : (F6 ℝ).toSquare.mulVec ⟨1, 0⟩ = ⟨((F6 ℝ).cols : ℝ), 0⟩ := by
    norm_num [F6, Mat2.mulVec]
  have hy : (F6 ℝ).toSquare.mulVec ⟨0, 1⟩
      = ⟨-(((F6 ℝ).rows / 2 : ℕ) : ℝ), ((F6 ℝ).rows : ℝ)⟩ := by
    norm_num [F6, Mat2.mulVec]
  exact ⟨by norm_num [F6], hx, hy, C6_periodicity (F6 ℝ) 1 1 (by norm_num [F6]) hx hy ⟨0, 0⟩⟩

/-- Supporting lemma: every field actually built by `Field::new` satisfies
the translation hypotheses of the periodicity theorem — `to_square` maps
`(tile_x, 0)` to `(cols, 0)` and `(0, tile_y)` to `(-rows/2, rows)`. -/
theorem Field.new_toSquare_periods [FloorRing K] (sqrtF : K → K) (tx ty res : K)
    (F : Field K) (hnew : Field.new sqrtF tx ty res = some F) :
    0 < F.rows ∧ 0 < F.cols ∧
    F.toSquare.mulVec ⟨tx, 0⟩ = ⟨(F.cols : K), 0⟩ ∧
    F.toSquare.mulVec ⟨0, ty⟩ = ⟨-((F.rows / 2 : ℕ) : K), (F.rows : K)⟩ := by
  simp only [Field.new] at hnew
  set n : ℕ := (⌊tx / res⌋).toNat with hn
  set m : ℕ := (⌊ty * (1 / sqrtF 3) / res⌋).toNat with hm
  set s : K := sqrtF 3 with hs
  set dx : K := tx / (n : K) with hdx
  set dy : K := ty * (2 / s) / ((m * 2 : ℕ) : K) with hdy
  set M : Mat2 K := Mat2.mul ⟨dx, 0, 0, dy⟩ ⟨1, 1/2, 0, s / 2⟩ with hM
  rcases hOpt : M.inverse2 with _ | t
  · rw [hOpt] at hnew
    exact absurd hnew (by simp)
  · rw [hOpt] at hnew
    rw [Option.some.injEq] at hnew
    rw [Mat2.inverse2] at hOpt
    by_cases hdet : M.det = 0
    · rw [if_pos hdet] at hOpt
      exact absurd hOpt (by simp)
    · rw [if_neg hdet] at hOpt
      rw [Option.some.injEq] at hOpt
      have hdet' : M.det = dx * (dy * (s / 2)) := by
        simp only [hM, Mat2.mul, Mat2.det]
        ring
      have h1 : dx ≠ 0 ∧ dy * (s / 2) ≠ 0 := mul_ne_zero_iff.mp (hdet' ▸ hdet)
      have h2 : dy ≠ 0 ∧ s / 2 ≠ 0 := mul_ne_zero_iff.mp h1.2
      have hs0 : s ≠ 0 := fun h => h2.2 (by rw [h, zero_div])
      have hnK : (n : K) ≠ 0 := by
        intro h
        exact h1.1 (by rw [hdx, h, div_zero])
      have hmK : ((m * 2 : ℕ) : K) ≠ 0 := by
        intro h
        exact h2.1 (by rw [hdy, h, div_zero])
      have htx : tx ≠ 0 := by
        intro h
        exact h1.1 (by rw [hdx, h, zero_div])
      have hty : ty ≠ 0 := by
        intro h
        exact h2.1 (by rw [hdy, h, zero_mul, zero_div])
      have hnpos : 0 < n := Nat.pos_of_ne_zero (fun h => hnK (by rw [h, Nat.cast_zero]))
      have hmpos : 0 < m * 2 := Nat.pos_of_ne_zero (fun h => hmK (by rw [h, Nat.cast_zero]))
      have hFr : F.rows = m * 2 := by rw [← hnew]
      have hFc : F.cols = n := by rw [← hnew]
      have hFt : F.toSquare = t := by rw [← hnew]
      have hMd : M.d = dy * (s / 2) := by simp only [hM, Mat2.mul]; ring
      have hMb : M.b = dx / 2 := by simp only [hM, Mat2.mul]; ring
      have hMc : M.c = 0 := by simp only [hM, Mat2.mul]; ring
      have hMa : M.a = dx := by simp only [hM, Mat2.mul]; ring
      have ht : t = ⟨M.d / M.det, -M.b / M.det, -M.c / M.det, M.a / M.det⟩ := hOpt.symm
      refine ⟨by rw [hFr]; exact hmpos, by rw [hFc]; exact hnpos, ?_, ?_⟩
      · rw [hFt, ht, hFc]
        simp only [Mat2.mulVec, hMa, hMb, hMc, hMd, hdet', Vec2.mk.injEq]
        constructor
        · rw [hdx]
          field_simp
          ring
        · field_simp
      · rw [hFt, ht, hFr]
        have hhalf : ((m * 2 / 2 : ℕ) : K) = (m : K) := by
          norm_num
        simp only [Mat2.mulVec, hMa, hMb, hMc, hMd, hdet', hhalf, Vec2.mk.injEq]
        constructor
        · rw [hdy]
          field_simp
          ring
        · rw [hdy]
          field_simp
          ring

/-! ## C8: the Lipschitz bound `max_gradient` -/

/-- Folding `max` dominates the accumulator. -/
theorem le_foldl_max : ∀ (l : List K) (acc : K), acc ≤ l.foldl max acc := by
  intro l
  induction l with
  | nil => intro acc; simp
  | cons y ys ih =>
    intro acc
    calc acc ≤ max acc y := le_max_left _ _
    _ ≤ ys.foldl max (max acc y) := ih _

/-- Folding `max` dominates every member. -/
theorem mem_le_foldl_max : ∀ (l : List K) (acc x : K), x ∈ l → x ≤ l.foldl max acc := by
  intro l
  induction l with
  | nil => intro acc x hx; exact absurd hx (by simp)
  | cons y ys ih =>
    intro acc x hx
    rcases List.mem_cons.mp hx with rfl | hx
    · calc x ≤ max acc x := le_max_right _ _
      _ ≤ ys.foldl max (max acc x) := le_foldl_max _ _
    · exact ih _ x hx

/-- Every member of a list is at most its `listMax`. -/
theorem le_listMax (l : List K) (x : K) (hx : x ∈ l) : x ≤ listMax l := by
  cases l with
  | nil => exact absurd hx (by simp)
  | cons y ys =>
    rcases List.mem_cons.mp hx with rfl | hx
    · exact le_foldl_max ys x
    · exact mem_le_foldl_max ys y x hx

/-- Folding `max` returns the accumulator or a member. -/
theorem foldl_max_mem : ∀ (l : List K) (acc : K), l.foldl max acc = acc ∨ l.foldl max acc ∈ l := by
  intro l
  induction l with
  | nil => intro acc; left; rfl
  | cons y ys ih =>
    intro acc
    rcases ih (max acc y) with h | h
    · rcases max_choice acc y with hm | hm
      · left; rw [List.foldl_cons, h, hm]
      · right; rw [List.foldl_cons, h, hm]; exact List.mem_cons_self _ _
    · right
      exact List.mem_cons_of_mem _ h
  
/-- The `listMax` of a nonempty list is a member. -/
theorem listMax_mem (l : List K) (hne : l ≠ []) : listMax l ∈ l := by
  cases l with
  | nil => exact absurd rfl hne
  | cons y ys =>
    simp only [listMax]
    rcases foldl_max_mem ys y with h | h
    · rw [h]; exact List.mem_cons_self _ _
    · exact List.mem_cons_of_mem _ h

/-- The gradient of the triangle of cell `(col, row)` with orientation `o`
(the triangle `trig_data` selects for a square-space point in that cell). -/
def Field.cellGradient (F : Field K) (col row : ℤ) (o : TrigType) : Vec2 K :=
  match o with
  | TrigType.Lower =>
      F.trigGradient (lowerTrig col row).1 (lowerTrig col row).2.1
        (lowerTrig col row).2.2 TrigType.Lower
  | TrigType.Upper =>
      F.trigGradient (upperTrig col row).1 (upperTrig col row).2.1
        (upperTrig col row).2.2 TrigType.Upper

/-- Cell gradients are invariant under horizontal wrap. -/
theorem Field.cellGradient_col_shift (F : Field K) (col row k : ℤ) (o : TrigType) :
    F.cellGradient (col + (F.cols : ℤ) * k) row o = F.cellGradient col row o := by
  cases o with
  | Upper =>
    simp only [Field.cellGradient, upperTrig, Field.trigGradient]
    rw [show col + (F.cols : ℤ) * k + 1 = col + 1 + (F.cols : ℤ) * k from by ring,
        F.vertexSample_col_shift col (row + 1) k,
        F.vertexSample_col_shift (col + 1) (row + 1) k,
        F.vertexSample_col_shift (col + 1) row k]
  | Lower =>
    simp only [Field.cellGradient, lowerTrig, Field.trigGradient]
    rw [show col + (F.cols : ℤ) * k + 1 = col + 1 + (F.cols : ℤ) * k from by ring,
        F.vertexSample_col_shift col (row + 1) k,
        F.vertexSample_col_shift (col + 1) row k,
        F.vertexSample_col_shift col row k]

/-- Cell gradients are invariant under the vertical band wrap. -/
theorem Field.cellGradient_band_shift (F : Field K) (hr : 0 < F.rows)
    (col row q : ℤ) (o : TrigType) :
    F.cellGradient (col + ((F.rows : ℤ) / 2) * q) (row - (F.rows : ℤ) * q) o
      = F.cellGradient col row o := by
  cases o with
  | Upper =>
    simp only [Field.cellGradient, upperTrig, Field.trigGradient]
    rw [show col + ((F.rows : ℤ) / 2) * q + 1 = col + 1 + ((F.rows : ℤ) / 2) * q from by ring,
        show row - (F.rows : ℤ) * q + 1 = row + 1 - (F.rows : ℤ) * q from by ring,
        F.vertexSample_band_shift hr col (row + 1) q,
        F.vertexSample_band_shift hr (col + 1) (row + 1) q,
        F.vertexSample_band_shift hr (col + 1) row q]
  | Lower =>
    simp only [Field.cellGradient, lowerTrig, Field.trigGradient]
    rw [show col + ((F.rows : ℤ) / 2) * q + 1 = col + 1 + ((F.rows : ℤ) / 2) * q from by ring,
        show row - (F.rows : ℤ) * q + 1 = row + 1 - (F.rows : ℤ) * q from by ring,
        F.vertexSample_band_shift hr col (row + 1) q,
        F.vertexSample_band_shift hr (col + 1) row q,
        F.vertexSample_band_shift hr col row q]

/-- Every cell gradient equals the gradient of an in-range cell. -/
theorem Field.cellGradient_localize (F : Field K) (hr : 0 < F.rows) (hc : 0 < F.cols)
    (col row : ℤ) (o : TrigType) :
    ∃ c₀ r₀ : ℕ, c₀ < F.cols ∧ r₀ < F.rows ∧
      F.cellGradient col row o = F.cellGradient (c₀ : ℤ) (r₀ : ℤ) o := by
  have hR : (0 : ℤ) < (F.rows : ℤ) := by exact_mod_cast hr
  have hC : (0 : ℤ) < (F.cols : ℤ) := by exact_mod_cast hc
  have e1 : F.cellGradient (col + ((F.rows : ℤ) / 2) * (row / (F.rows : ℤ)))
      (row % (F.rows : ℤ)) o = F.cellGradient col row o := by
    rw [show row % (F.rows : ℤ) = row - (F.rows : ℤ) * (row / (F.rows : ℤ)) from
      Int.emod_def row _]
    exact F.cellGradient_band_shift hr col row _ o
  set col₁ : ℤ := col + ((F.rows : ℤ) / 2) * (row / (F.rows : ℤ)) with hcol₁
  have e2 : F.cellGradient (col₁ % (F.cols : ℤ)) (row % (F.rows : ℤ)) o
      = F.cellGradient col₁ (row % (F.rows : ℤ)) o := by
    rw [show col₁ % (F.cols : ℤ) = col₁ + (F.cols : ℤ) * (-(col₁ / (F.cols : ℤ))) from by
      rw [Int.emod_def col₁ (F.cols : ℤ)]
      ring]
    exact F.cellGradient_col_shift col₁ (row % (F.rows : ℤ)) _ o
  refine ⟨(col₁ % (F.cols : ℤ)).toNat, (row % (F.rows : ℤ)).toNat, ?_, ?_, ?_⟩
  · have h1 := Int.emod_lt_of_pos col₁ hC
    have h2 := Int.emod_nonneg col₁ hC.ne'
    omega
  · have h1 := Int.emod_lt_of_pos row hR
    have h2 := Int.emod_nonneg row hR.ne'
    omega
  · rw [Int.toNat_of_nonneg (Int.emod_nonneg col₁ hC.ne'),
        Int.toNat_of_nonneg (Int.emod_nonneg row hR.ne')]
    rw [e2, e1]

/-- Lemma: `gradient` is the gradient of the located cell's triangle. -/
theorem Field.gradient_eq_cellGradient [FloorRing K] (F : Field K) (p : Vec2 K) :
    F.gradient p
      = F.cellGradient ⌊(F.toSquare.mulVec p).x⌋ ⌊(F.toSquare.mulVec p).y⌋
          (F.trigData p).ttype := by
  simp only [Field.gradient, Field.trigData, trigDataFromSquareCoords, Field.cellGradient]
  split_ifs <;> rfl

/-- C8: `max_gradient` dominates the norm of every triangle gradient, is
itself one of the triangle gradient norms, and consequently bounds the
gradient norm at every query point (a global Lipschitz bound). -/
theorem C8_max_gradient_bound (F : Field ℝ) (hr : 0 < F.rows) (hc : 0 < F.cols)
    (p : Vec2 ℝ) :
    (∀ g ∈ F.trigList.map
        (fun tt => Real.sqrt (Vec2.normSq (F.trigGradient tt.1.1 tt.1.2.1 tt.1.2.2 tt.2))),
      g ≤ F.maxGradient Real.sqrt) ∧
    F.maxGradient Real.sqrt ∈ F.trigList.map
        (fun tt => Real.sqrt (Vec2.normSq (F.trigGradient tt.1.1 tt.1.2.1 tt.1.2.2 tt.2))) ∧
    Real.sqrt (Vec2.normSq (F.gradient p)) ≤ F.maxGradient Real.sqrt := by
  have hmono : ∀ a b : ℝ, a ≤ b → Real.sqrt a ≤ Real.sqrt b :=
    fun a b h => Real.sqrt_le_sqrt h
  set sqList :=
    F.trigList.map (fun tt => Vec2.normSq (F.trigGradient tt.1.1 tt.1.2.1 tt.1.2.2 tt.2))
    with hsql
  have hmg : F.maxGradient Real.sqrt = Real.sqrt (listMax sqList) := by
    rw [Field.maxGradient, hsql]
  have hmapmap : F.trigList.map
      (fun tt => Real.sqrt (Vec2.normSq (F.trigGradient tt.1.1 tt.1.2.1 tt.1.2.2 tt.2)))
      = sqList.map Real.sqrt := by
    rw [hsql, List.map_map]
    rfl
  have hne : F.trigList ≠ [] := by
    apply List.ne_nil_of_mem (a := (lowerTrig 0 0, TrigType.Lower))
    simp only [Field.trigList, List.mem_flatMap, List.mem_range]
    exact ⟨0, hr, 0, hc, by simp⟩
  have hsne : sqList ≠ [] := by
    rw [hsql]
    exact fun h => hne (List.map_eq_nil_iff.mp h)
  refine ⟨?_, ?_, ?_⟩
  · intro g hg
    rw [hmapmap] at hg
    obtain ⟨y, hy, rfl⟩ := List.mem_map.mp hg
    rw [hmg]
    exact hmono _ _ (le_listMax sqList y hy)
  · rw [hmapmap, hmg]
    exact List.mem_map_of_mem Real.sqrt (listMax_mem sqList hsne)
  · have hg := F.gradient_eq_cellGradient p
    obtain ⟨c₀, r₀, hc₀, hr₀, he⟩ :=
      F.cellGradient_localize hr hc ⌊(F.toSquare.mulVec p).x⌋ ⌊(F.toSquare.mulVec p).y⌋
        (F.trigData p).ttype
    have hmem : Vec2.normSq (F.cellGradient (c₀ : ℤ) (r₀ : ℤ) (F.trigData p).ttype)
        ∈ sqList := by
      rw [hsql]
      cases ho : (F.trigData p).ttype with
      | Lower =>
        apply List.mem_map.mpr
        refine ⟨(lowerTrig (c₀ : ℤ) (r₀ : ℤ), TrigType.Lower), ?_, ?_⟩
        · simp only [Field.trigList, List.mem_flatMap, List.mem_range]
          exact ⟨r₀, hr₀, c₀, hc₀, by simp⟩
        · simp [Field.cellGradient]
      | Upper =>
        apply List.mem_map.mpr
        refine ⟨(upperTrig (c₀ : ℤ) (r₀ : ℤ), TrigType.Upper), ?_, ?_⟩
        · simp only [Field.trigList, List.mem_flatMap, List.mem_range]
          exact ⟨r₀, hr₀, c₀, hc₀, by simp⟩
        · simp [Field.cellGradient]
    rw [hg, he, hmg]
    exact hmono _ _ (le_listMax sqList _ hmem)

/-- C8 witness: the Lipschitz bound on the concrete field `F1` at the
origin. -/
theorem C8_max_gradient_bound_witness :
    0 < (F1 ℝ).rows ∧ 0 < (F1 ℝ).cols ∧
    ((∀ g ∈ (F1 ℝ).trigList.map
        (fun tt => Real.sqrt
          (Vec2.normSq ((F1 ℝ).trigGradient tt.1.1 tt.1.2.1 tt.1.2.2 tt.2))),
      g ≤ (F1 ℝ).maxGradient Real.sqrt) ∧
    (F1 ℝ).maxGradient Real.sqrt ∈ (F1 ℝ).trigList.map
        (fun tt => Real.sqrt
          (Vec2.normSq ((F1 ℝ).trigGradient tt.1.1 tt.1.2.1 tt.1.2.2 tt.2))) ∧
    Real.sqrt (Vec2.normSq ((F1 ℝ).gradient ⟨0, 0⟩)) ≤ (F1 ℝ).maxGradient Real.sqrt) :=
  ⟨by norm_num [F1], by norm_num [F1],
   C8_max_gradient_bound (F1 ℝ) (by norm_num [F1]) (by norm_num [F1]) ⟨0, 0⟩⟩
